import Mathlib

/-!
Verification of the Entropic Regression model-structure-selection core
(`sysidentpy/model_structure_selection/entropic_regression.py`).

The numeric pipeline is shallowly embedded over `ℚ`:

* numpy row vectors / matrices are `List ℚ` / `List (List ℚ)`, with all
  vectorized operations written as `(List.range n).map` of the per-index
  computation (numpy arrays of equal length are exactly such index maps);
* IEEE `-inf` appearing as an initial value of a running max/min is
  modelled by `⊥ : WithBot ℚ`; the float comparison `-inf <= tol` is
  `⊥ ≤ ↑tol`, which is likewise always true;
* `scipy.special.psi` (digamma) is an abstract parameter `ψ : ℕ → ℚ`.
  In the source it is only ever applied to integer arguments `count + 1`
  and `k`; `psi` of a *nonpositive* integer is non-finite (a pole) and is
  subsequently discarded by the `arr[np.isfinite(arr)]` mask, so the mask
  is modelled exactly by the test `0 ≤ count` on each of the counts;
* `numpy.random` permutation draws and the mutual-information estimates
  computed from them are abstracted into an oracle: the rng is a
  `(seed, counter)` pair and every permutation draw advances the counter,
  exactly as the per-instance `self.rng` stream does;
* the least-squares projections `R @ pinv(R) @ y` are real-valued (they
  need an SVD) and enter the selection logic only through the scalar
  MI/CMI estimates, so they are abstracted into oracle fields as well;
* `np.argpartition(v, kth)[:kth+1]` is determinized as the first `kth+1`
  entries of a stable argsort (a full stable sort satisfies the partial
  ordering contract of `argpartition`; on the already sorted rows produced
  by the surrounding code numpy's introselect also leaves distinct values
  in this order).
-/

namespace EntropicRegression

/-- Mean of a list of rationals, `np.nanmean` applied to an already
finite-filtered list (the empty-list case, `NaN` in numpy, is the junk
value `0/0 = 0` here; no theorem below depends on it). -/
def meanQ (l : List ℚ) : ℚ := l.sum / (l.length : ℚ)

/-- Index of the first occurrence of `x`, `l.length`-saturating; the
first-occurrence convention matches `np.argmax`/`np.argmin`. -/
def firstIdxOf {α : Type} [DecidableEq α] (x : α) : List α → ℕ
  | [] => 0
  | a :: l => if a = x then 0 else firstIdxOf x l + 1

theorem firstIdxOf_lt_length {α : Type} [DecidableEq α] {x : α} {l : List α}
    (h : x ∈ l) : firstIdxOf x l < l.length := by
  induction l with
  | nil => cases h
  | cons a l ih =>
    by_cases hax : a = x
    · simp [firstIdxOf, hax]
    · rcases List.mem_cons.mp h with h1 | h2
      · exact absurd h1.symm hax
      · simpa [firstIdxOf, hax] using ih h2

theorem getD_firstIdxOf {α : Type} [DecidableEq α] {x : α} {l : List α}
    (h : x ∈ l) (d : α) : l.getD (firstIdxOf x l) d = x := by
  induction l with
  | nil => cases h
  | cons a l ih =>
    by_cases hax : a = x
    · simp [firstIdxOf, hax]
    · rcases List.mem_cons.mp h with h1 | h2
      · exact absurd h1.symm hax
      · simpa [firstIdxOf, hax] using ih h2

theorem getD_ne_of_lt_firstIdxOf {α : Type} [DecidableEq α] {x : α} {l : List α}
    {j : ℕ} (hj : j < firstIdxOf x l) (d : α) : l.getD j d ≠ x := by
  induction l generalizing j with
  | nil => simp [firstIdxOf] at hj
  | cons a l ih =>
    by_cases hax : a = x
    · simp [firstIdxOf, hax] at hj
    · cases j with
      | zero => simpa using hax
      | succ j =>
        simp only [firstIdxOf, hax, if_false] at hj
        simpa using ih (Nat.lt_of_succ_lt_succ hj)

/-- Running maximum with `-inf` start, modelling `np.full(..., -np.inf)`
followed by `np.nanargmax`-style maximization. -/
def maxB (l : List (WithBot ℚ)) : WithBot ℚ := l.foldr max ⊥

theorem le_maxB {l : List (WithBot ℚ)} {x : WithBot ℚ} (h : x ∈ l) : x ≤ maxB l := by
  induction l with
  | nil => cases h
  | cons a l ih =>
    have hc : maxB (a :: l) = max a (maxB l) := rfl
    rcases List.mem_cons.mp h with h1 | h2
    · rw [hc, h1]; exact le_max_left _ _
    · rw [hc]; exact le_trans (ih h2) (le_max_right _ _)

theorem maxB_le_iff {l : List (WithBot ℚ)} {c : WithBot ℚ} :
    maxB l ≤ c ↔ ∀ x ∈ l, x ≤ c := by
  induction l with
  | nil => simp [maxB]
  | cons a l ih =>
    have hc : maxB (a :: l) = max a (maxB l) := rfl
    rw [hc, max_le_iff, ih]
    constructor
    · rintro ⟨h1, h2⟩ x hx
      rcases List.mem_cons.mp hx with h3 | h3
      · rw [h3]; exact h1
      · exact h2 x h3
    · intro hall
      exact ⟨hall a (List.mem_cons_self a l), fun x hx => hall x (List.mem_cons_of_mem a hx)⟩

theorem maxB_mem_or_bot (l : List (WithBot ℚ)) : maxB l ∈ l ∨ maxB l = ⊥ := by
  induction l with
  | nil => right; rfl
  | cons a l ih =>
    have hc : maxB (a :: l) = max a (maxB l) := rfl
    rcases max_choice a (maxB l) with h | h
    · left; rw [hc, h]; exact List.mem_cons_self a l
    · rcases ih with h2 | h2
      · left; rw [hc, h]; exact List.mem_cons_of_mem a h2
      · right; rw [hc, h, h2]

/-- Running minimum of a non-empty rational list, seeded with its first
element (`np.argmin` over an array that the code has fully populated). -/
def minQ (l : List ℚ) : ℚ := l.foldr min (l.getD 0 0)

theorem minQ_mem {l : List ℚ} (h : l ≠ []) : minQ l ∈ l := by
  have key : ∀ (init : ℚ) (l' : List ℚ), l'.foldr min init ∈ l' ∨ l'.foldr min init = init := by
    intro init l'
    induction l' with
    | nil => right; rfl
    | cons a t ih =>
      have hc : (a :: t).foldr min init = min a (t.foldr min init) := rfl
      rcases min_choice a (t.foldr min init) with h1 | h1
      · left; rw [hc, h1]; exact List.mem_cons_self a t
      · rcases ih with h2 | h2
        · left; rw [hc, h1]; exact List.mem_cons_of_mem a h2
        · right; rw [hc, h1, h2]
  rcases key (l.getD 0 0) l with h1 | h1
  · exact h1
  · rw [minQ, h1]
    cases l with
    | nil => exact absurd rfl h
    | cons a t => simp

theorem nanargmin_lt_length {l : List ℚ} (h : l ≠ []) :
    firstIdxOf (minQ l) l < l.length :=
  firstIdxOf_lt_length (minQ_mem h)

theorem getD_map_range {α : Type} (f : ℕ → α) {n i : ℕ} (h : i < n) (d : α) :
    (((List.range n).map f).getD i d) = f i := by
  rw [List.getD_eq_getElem?_getD, List.getElem?_map, List.getElem?_range h]
  rfl

theorem getD_map_lt {α β : Type} (f : α → β) {l : List α} {i : ℕ}
    (h : i < l.length) (d : β) (d' : α) :
    ((l.map f).getD i d) = f (l.getD i d') := by
  rw [List.getD_eq_getElem?_getD, List.getElem?_map,
    List.getD_eq_getElem?_getD, List.getElem?_eq_getElem h]
  rfl

theorem countP_eraseIdx (p : ℚ → Bool) :
    ∀ (l : List ℚ) (i : ℕ), i < l.length →
      l.countP p = (l.eraseIdx i).countP p + (if p (l.getD i 0) then 1 else 0) := by
  intro l
  induction l with
  | nil => intro i h; simp at h
  | cons a t ih =>
    intro i hi
    cases i with
    | zero =>
      simp [List.countP_cons, List.eraseIdx]
    | succ j =>
      have hj : j < t.length := by simpa using hi
      simp only [List.eraseIdx_cons_succ, List.getD_cons_succ, List.countP_cons]
      rw [ih j hj]
      ring

/-- Interpolation index of `np.quantile(a, q)`: `⌊q*(n-1)⌋`. -/
def quantileIdx (l : List ℚ) (q : ℚ) : ℕ := (⌊q * ((l.length : ℚ) - 1)⌋).toNat

/-- `np.quantile(a, q)` with the default linear interpolation method:
with `a` sorted ascending and `h = q*(n-1)`, the result is
`a[⌊h⌋] + (h - ⌊h⌋) * (a[⌊h⌋+1] - a[⌊h⌋])` (the `⌊h⌋+1` access only
matters when the fractional part is nonzero, in which case it is in
range; out-of-range access falls back to `a[⌊h⌋]`). -/
def npQuantile (l : List ℚ) (q : ℚ) : ℚ :=
  (List.insertionSort (· ≤ ·) l).getD (quantileIdx l q) 0
  + (q * ((l.length : ℚ) - 1) - (⌊q * ((l.length : ℚ) - 1)⌋ : ℚ))
    * ((List.insertionSort (· ≤ ·) l).getD (quantileIdx l q + 1)
        ((List.insertionSort (· ≤ ·) l).getD (quantileIdx l q) 0)
      - (List.insertionSort (· ≤ ·) l).getD (quantileIdx l q) 0)

theorem npQuantile_bounds {l : List ℚ} {q A B : ℚ} (hl : l ≠ [])
    (hq0 : 0 ≤ q) (hq1 : q ≤ 1)
    (hA : ∀ x ∈ l, A ≤ x) (hB : ∀ x ∈ l, x ≤ B) :
    A ≤ npQuantile l q ∧ npQuantile l q ≤ B := by
  have hn : 1 ≤ l.length := List.length_pos.mpr hl
  have hslen : (List.insertionSort (· ≤ ·) l).length = l.length :=
    (List.perm_insertionSort _ l).length_eq
  have hsmem : ∀ x ∈ List.insertionSort (· ≤ ·) l, x ∈ l :=
    fun x hx => (List.perm_insertionSort _ l).subset hx
  have hsorted : (List.insertionSort (· ≤ ·) l).Sorted (· ≤ ·) :=
    List.sorted_insertionSort _ l
  have hn1 : (0:ℚ) ≤ (l.length : ℚ) - 1 := by
    have h1 : (1:ℚ) ≤ (l.length : ℚ) := by exact_mod_cast hn
    linarith
  have h0 : 0 ≤ q * ((l.length : ℚ) - 1) := mul_nonneg hq0 hn1
  have hub : q * ((l.length : ℚ) - 1) ≤ (l.length : ℚ) - 1 :=
    mul_le_of_le_one_left hn1 hq1
  have hiub : quantileIdx l q < l.length := by
    have h1 : ⌊q * ((l.length : ℚ) - 1)⌋ ≤ (l.length : ℤ) - 1 := by
      calc ⌊q * ((l.length : ℚ) - 1)⌋ ≤ ⌊(l.length : ℚ) - 1⌋ := Int.floor_le_floor hub
      _ = (l.length : ℤ) - 1 := by
          rw [show ((l.length : ℚ) - 1) = (((l.length : ℤ) - 1 : ℤ) : ℚ) by push_cast; ring,
            Int.floor_intCast]
    have h3 : (0:ℤ) ≤ ⌊q * ((l.length : ℚ) - 1)⌋ := Int.floor_nonneg.mpr h0
    unfold quantileIdx
    omega
  have hgam0 : 0 ≤ q * ((l.length : ℚ) - 1) - (⌊q * ((l.length : ℚ) - 1)⌋ : ℚ) := by
    have := Int.floor_le (q * ((l.length : ℚ) - 1)); linarith
  have hgam1 : q * ((l.length : ℚ) - 1) - (⌊q * ((l.length : ℚ) - 1)⌋ : ℚ) ≤ 1 := by
    have := Int.lt_floor_add_one (q * ((l.length : ℚ) - 1)); linarith
  unfold npQuantile
  set s := List.insertionSort (· ≤ ·) l with hs
  set i := quantileIdx l q with hidef
  set γ := q * ((l.length : ℚ) - 1) - (⌊q * ((l.length : ℚ) - 1)⌋ : ℚ) with hγ
  set a := s.getD i 0 with ha
  set b := s.getD (i + 1) a with hb
  have hslen2 : s.length = l.length := hslen
  have hiub2 : i < l.length := hiub
  have hislen : i < s.length := by omega
  have hamem : a ∈ l := by
    have hval : a = s.get ⟨i, hislen⟩ := by
      rw [ha, List.getD_eq_getElem?_getD, List.getElem?_eq_getElem hislen]; rfl
    rw [hval]
    exact hsmem _ (List.get_mem s _ _)
  have hab : a ≤ b := by
    by_cases hib : i + 1 < s.length
    · have hbv : b = s.get ⟨i + 1, hib⟩ := by
        rw [hb, List.getD_eq_getElem?_getD, List.getElem?_eq_getElem hib]; rfl
      have hav : a = s.get ⟨i, hislen⟩ := by
        rw [ha, List.getD_eq_getElem?_getD, List.getElem?_eq_getElem hislen]; rfl
      rw [hav, hbv]
      exact List.pairwise_iff_get.mp hsorted ⟨i, hislen⟩ ⟨i + 1, hib⟩ (by simp [Fin.lt_def])
    · rw [hb, List.getD_eq_default _ _ (by omega)]
  have hbB : b ≤ B := by
    by_cases hib : i + 1 < s.length
    · have hbv : b = s.get ⟨i + 1, hib⟩ := by
        rw [hb, List.getD_eq_getElem?_getD, List.getElem?_eq_getElem hib]; rfl
      rw [hbv]
      exact hB _ (hsmem _ (List.get_mem s _ _))
    · rw [hb, List.getD_eq_default _ _ (by omega)]
      exact hB _ hamem
  constructor
  · have h1 : 0 ≤ γ * (b - a) := mul_nonneg hgam0 (by linarith)
    have h2 : A ≤ a := hA _ hamem
    linarith
  · have h1 : γ * (b - a) ≤ b - a := mul_le_of_le_one_left (by linarith) hgam1
    linarith

/-- Chebyshev distance between two points, i.e. the Minkowski distance of
order `p = np.inf` (the class default for `self.p`). -/
def cheb (a b : List ℚ) : ℚ := (List.zipWith (fun x y => |x - y|) a b).foldr max 0

/-- `scipy.spatial.distance.cdist(pts, pts, "minkowski", p=self.p)` with
the point-to-point distance `d` kept abstract (any Minkowski order). -/
def cdist (d : List ℚ → List ℚ → ℚ) (pts : List (List ℚ)) : List (List ℚ) :=
  (List.range pts.length).map (fun i =>
    (List.range pts.length).map (fun j => d (pts.getD i []) (pts.getD j [])))

/-- The transpose `cdist(pts, pts, ...).T`: row `i` holds `d(p_j, p_i)`. -/
def cdistT (d : List ℚ → List ℚ → ℚ) (pts : List (List ℚ)) : List (List ℚ) :=
  (List.range pts.length).map (fun i =>
    (List.range pts.length).map (fun j => d (pts.getD j []) (pts.getD i [])))

/-- Stable argsort order on positions of `v`: by value, ties by position. -/
def argsortRel (v : List ℚ) (i j : ℕ) : Prop :=
  v.getD i 0 < v.getD j 0 ∨ (v.getD i 0 = v.getD j 0 ∧ i ≤ j)

instance (v : List ℚ) : DecidableRel (argsortRel v) := fun i j => by
  unfold argsortRel; infer_instance

/-- Deterministic model of `np.argpartition(v, kth)`: a full stable
argsort.  A full sort is one realization of the partial ordering contract
of `argpartition`; on the already-sorted rows this code feeds it, numpy's
introselect also leaves distinct values in exactly this order. -/
def argsortM (v : List ℚ) : List ℕ :=
  List.insertionSort (argsortRel v) (List.range v.length)

/-- Row-sorted transposed distance matrix
`smallest_distance = np.sort(cdist(X, X, "minkowski", p).T)`. -/
def knnSortedRows (d : List ℚ → List ℚ → ℚ) (pts : List (List ℚ)) : List (List ℚ) :=
  (cdistT d pts).map (List.insertionSort (· ≤ ·))

/-- The column selected by
`idx = np.argpartition(smallest_distance[-1, :], k+1)[:k+1]` followed by
`[:, idx][:, -1]`, i.e. `idx[k]`. -/
def knnCol (d : List ℚ → List ℚ → ℚ) (pts : List (List ℚ)) (k : ℕ) : ℕ :=
  ((argsortM ((knnSortedRows d pts).getD (pts.length - 1) [])).take (k + 1)).getD k 0

/-- The per-point radius `epsilon`, modelling the identical blocks in
`mutual_information_knn` and `conditional_mutual_information`:
`smallest_distance = np.sort(cdist(X, X).T)`;
`idx = np.argpartition(smallest_distance[-1, :], k+1)[:k+1]`;
`epsilon = smallest_distance[:, idx][:, -1]`. -/
def knnRadius (d : List ℚ → List ℚ → ℚ) (k : ℕ) (pts : List (List ℚ)) : List ℚ :=
  (knnSortedRows d pts).map (fun r => r.getD (knnCol d pts k) 0)

theorem sorted_getD_le {v : List ℚ} (hv : v.Sorted (· ≤ ·)) {i j : ℕ}
    (hij : i ≤ j) (hj : j < v.length) : v.getD i 0 ≤ v.getD j 0 := by
  rcases eq_or_lt_of_le hij with h | h
  · rw [h]
  · have hi : i < v.length := lt_trans h hj
    have h1 : v.getD i 0 = v.get ⟨i, hi⟩ := by
      rw [List.getD_eq_getElem?_getD, List.getElem?_eq_getElem hi]; rfl
    have h2 : v.getD j 0 = v.get ⟨j, hj⟩ := by
      rw [List.getD_eq_getElem?_getD, List.getElem?_eq_getElem hj]; rfl
    rw [h1, h2]
    exact List.pairwise_iff_get.mp hv ⟨i, hi⟩ ⟨j, hj⟩ (by simp [Fin.lt_def, h])

theorem argsortM_of_sorted {v : List ℚ} (hv : v.Sorted (· ≤ ·)) :
    argsortM v = List.range v.length := by
  unfold argsortM
  apply List.Sorted.insertionSort_eq
  rw [List.Sorted, List.pairwise_iff_get]
  intro a b hab
  have hva : (List.range v.length).get a = a.1 := by
    simp [List.get_eq_getElem, List.getElem_range]
  have hvb : (List.range v.length).get b = b.1 := by
    simp [List.get_eq_getElem, List.getElem_range]
  rw [hva, hvb]
  have hb : b.1 < v.length := by
    have := b.2; simpa using this
  have hle : a.1 ≤ b.1 := le_of_lt hab
  have hmono : v.getD a.1 0 ≤ v.getD b.1 0 := sorted_getD_le hv hle hb
  rcases lt_or_eq_of_le hmono with h | h
  · exact Or.inl h
  · exact Or.inr ⟨h, hle⟩

theorem cdistT_eq_cdist {d : List ℚ → List ℚ → ℚ} (hsym : ∀ a b, d a b = d b a)
    (pts : List (List ℚ)) : cdistT d pts = cdist d pts := by
  unfold cdistT cdist
  congr 1
  funext i
  congr 1
  funext j
  exact hsym _ _

theorem knnRadius_eq_sorted_getD {d : List ℚ → List ℚ → ℚ} {pts : List (List ℚ)}
    {k : ℕ} (hsym : ∀ a b, d a b = d b a) (hk : k + 1 < pts.length)
    {i : ℕ} (hi : i < pts.length) :
    (knnRadius d k pts).getD i 0
      = (List.insertionSort (· ≤ ·) ((cdist d pts).getD i [])).getD k 0 := by
  have hn : 1 ≤ pts.length := by omega
  have hcdlen : (cdist d pts).length = pts.length := by
    unfold cdist; rw [List.length_map, List.length_range]
  have hrowlen : ∀ j, j < pts.length → ((cdist d pts).getD j []).length = pts.length := by
    intro j hj
    unfold cdist
    rw [getD_map_range _ hj]
    rw [List.length_map, List.length_range]
  have hsrows : knnSortedRows d pts = (cdist d pts).map (List.insertionSort (· ≤ ·)) := by
    unfold knnSortedRows
    rw [cdistT_eq_cdist hsym]
  have hsrlen : (knnSortedRows d pts).length = pts.length := by
    rw [hsrows, List.length_map, hcdlen]
  have hlast : (knnSortedRows d pts).getD (pts.length - 1) []
      = List.insertionSort (· ≤ ·) ((cdist d pts).getD (pts.length - 1) []) := by
    rw [hsrows]
    exact getD_map_lt _ (by omega) _ _
  have hlastlen :
      ((knnSortedRows d pts).getD (pts.length - 1) []).length = pts.length := by
    rw [hlast, (List.perm_insertionSort _ _).length_eq, hrowlen _ (by omega)]
  have hlastsorted : ((knnSortedRows d pts).getD (pts.length - 1) []).Sorted (· ≤ ·) := by
    rw [hlast]; exact List.sorted_insertionSort _ _
  have hcol : knnCol d pts k = k := by
    unfold knnCol
    rw [argsortM_of_sorted hlastsorted, hlastlen, List.take_range]
    have hmin : min (k + 1) pts.length = k + 1 := by omega
    rw [hmin, List.getD_eq_getElem?_getD, List.getElem?_range (by omega)]
    rfl
  unfold knnRadius
  rw [hcol]
  have hilen : i < (knnSortedRows d pts).length := by omega
  rw [getD_map_lt _ hilen _ []]
  rw [hsrows, getD_map_lt _ (by omega) _ []]

theorem insertionSort_erase_zero {l : List ℚ} (hnn : ∀ x ∈ l, 0 ≤ x)
    (h0 : (0:ℚ) ∈ l) :
    List.insertionSort (· ≤ ·) l = 0 :: List.insertionSort (· ≤ ·) (l.erase 0) := by
  have hperm : List.Perm (List.insertionSort (· ≤ ·) l)
      (0 :: List.insertionSort (· ≤ ·) (l.erase 0)) := by
    refine (List.perm_insertionSort _ l).trans ?_
    refine (List.perm_cons_erase h0).trans ?_
    exact List.Perm.cons 0 (List.perm_insertionSort _ _).symm
  refine List.eq_of_perm_of_sorted hperm (List.sorted_insertionSort _ l) ?_
  rw [List.sorted_cons]
  refine ⟨fun b hb => hnn b ?_, List.sorted_insertionSort _ _⟩
  exact (List.erase_subset 0 l) ((List.perm_insertionSort _ _).subset hb)

/-- Column concatenation `np.concatenate([y, f1, f2], axis=1)` of three
column vectors into a list of 3-dimensional points. -/
def colJoin3 (y f1 f2 : List ℚ) : List (List ℚ) :=
  (List.range y.length).map (fun i => [y.getD i 0, f1.getD i 0, f2.getD i 0])

/-- Column concatenation `np.concatenate([a, b], axis=1)`. -/
def colJoin2 (a b : List ℚ) : List (List ℚ) :=
  (List.range a.length).map (fun i => [a.getD i 0, b.getD i 0])

/-- A single column vector viewed as a list of 1-dimensional points. -/
def colJoin1 (a : List ℚ) : List (List ℚ) :=
  (List.range a.length).map (fun i => [a.getD i 0])

/-- `(np.sum(cdist(Z, Z, ...) < epsilon, axis=1) - 1)`: the comparison
broadcasts the column vector `epsilon` row-wise, so entry `i` counts the
points strictly within `epsilon[i]` of point `i` (itself included when
`0 < epsilon[i]`), minus one. -/
def neighborCount (d : List ℚ → List ℚ → ℚ) (pts2 : List (List ℚ))
    (eps : List ℚ) : List ℤ :=
  (List.range pts2.length).map (fun i =>
    ((((cdist d pts2).getD i []).countP (fun x => decide (x < eps.getD i 0))) : ℤ) - 1)

/-- `mutual_information_knn(self, y, y_perm)` with digamma `ψ` abstract.
A term `psi(nx+1) + psi(ny+1)` is finite iff both counts are nonnegative
(digamma has poles exactly at the nonpositive integers), which is how the
`arr[np.isfinite(arr)]` mask is modelled. -/
def mutual_information_knn (ψ : ℕ → ℚ) (d : List ℚ → List ℚ → ℚ) (k : ℕ)
    (y yperm : List ℚ) : ℚ :=
  let eps := knnRadius d k (colJoin2 y yperm)
  let nx := neighborCount d (colJoin1 y) eps
  let ny := neighborCount d (colJoin1 yperm) eps
  let arr : List (Option ℚ) := (List.range y.length).map (fun i =>
    if 0 ≤ nx.getD i 0 ∧ 0 ≤ ny.getD i 0 then
      some (ψ (nx.getD i 0 + 1).toNat + ψ (ny.getD i 0 + 1).toNat)
    else none)
  ψ k + ψ y.length - meanQ (arr.filterMap id)

/-- The joint-space radius vector `epsilon` of
`conditional_mutual_information`, over `[y, f1, f2]`. -/
def cmiEps (d : List ℚ → List ℚ → ℚ) (k : ℕ) (y f1 f2 : List ℚ) : List ℚ :=
  knnRadius d k (colJoin3 y f1 f2)

/-- The masked per-sample terms `psi(y_f2+1) + psi(f1_f2+1) - psi(f2_f2+1)`
of `conditional_mutual_information`; an entry is `none` exactly when the
float term would be non-finite, i.e. when some count is `-1`. -/
def cmiArr (ψ : ℕ → ℚ) (d : List ℚ → List ℚ → ℚ) (k : ℕ)
    (y f1 f2 : List ℚ) : List (Option ℚ) :=
  (List.range y.length).map (fun i =>
    if 0 ≤ (neighborCount d (colJoin2 y f2) (cmiEps d k y f1 f2)).getD i 0 ∧
       0 ≤ (neighborCount d (colJoin2 f1 f2) (cmiEps d k y f1 f2)).getD i 0 ∧
       0 ≤ (neighborCount d (colJoin1 f2) (cmiEps d k y f1 f2)).getD i 0 then
      some (ψ ((neighborCount d (colJoin2 y f2) (cmiEps d k y f1 f2)).getD i 0 + 1).toNat
        + ψ ((neighborCount d (colJoin2 f1 f2) (cmiEps d k y f1 f2)).getD i 0 + 1).toNat
        - ψ ((neighborCount d (colJoin1 f2) (cmiEps d k y f1 f2)).getD i 0 + 1).toNat)
    else none)

/-- `conditional_mutual_information(self, y, f1, f2)` with digamma `ψ`
abstract: KNN radius in the joint space `[y, f1, f2]`, neighbor counts in
the marginal spaces `[y, f2]`, `[f1, f2]` and `f2`, and the finite-masked
mean as in `mutual_information_knn`. -/
def conditional_mutual_information (ψ : ℕ → ℚ) (d : List ℚ → List ℚ → ℚ)
    (k : ℕ) (y f1 f2 : List ℚ) : ℚ :=
  ψ k - meanQ ((cmiArr ψ d k y f1 f2).filterMap id)

/-- Modelled from the spec's words (spec 4.3 / claim C5): the count, for
sample `i`, of the *other* points lying strictly within radius `e` of
point `i` in the space `pts2` — the point itself excluded, so the count
is a natural number. -/
def specOtherCount (d : List ℚ → List ℚ → ℚ) (pts2 : List (List ℚ))
    (i : ℕ) (e : ℚ) : ℕ :=
  ((((cdist d pts2).getD i []).eraseIdx i).countP (fun x => decide (x < e)))

/-- Modelled from the spec's words (spec 4.1 / claim C5): the per-sample
radius is the largest of the `k+1` smallest entries of row `i` of the
joint pairwise distance matrix. -/
def specEps (d : List ℚ → List ℚ → ℚ) (k : ℕ) (y f1 f2 : List ℚ) (i : ℕ) : ℚ :=
  (List.insertionSort (· ≤ ·) ((cdist d (colJoin3 y f1 f2)).getD i [])).getD k 0

/-- Modelled from the spec's words (spec 4.3 / claim C5): the per-sample
terms `digamma(y_f2+1) + digamma(f1_f2+1) - digamma(f2_f2+1)` with
other-point counts; all digamma arguments are positive, so every term is
finite. -/
def specTerms (ψ : ℕ → ℚ) (d : List ℚ → List ℚ → ℚ) (k : ℕ)
    (y f1 f2 : List ℚ) : List ℚ :=
  (List.range y.length).map (fun i =>
    ψ (specOtherCount d (colJoin2 y f2) i (specEps d k y f1 f2 i) + 1)
    + ψ (specOtherCount d (colJoin2 f1 f2) i (specEps d k y f1 f2 i) + 1)
    - ψ (specOtherCount d (colJoin1 f2) i (specEps d k y f1 f2 i) + 1))

/-- Modelled from the spec's words (spec 4.3 / claim C5): conditional MI
estimate `digamma(k) - mean(...)` over the (all-finite) spec terms. -/
def conditionalMISpec (ψ : ℕ → ℚ) (d : List ℚ → List ℚ → ℚ)
    (k : ℕ) (y f1 f2 : List ℚ) : ℚ :=
  ψ k - meanQ (specTerms ψ d k y f1 f2)

theorem cdist_length (d : List ℚ → List ℚ → ℚ) (pts : List (List ℚ)) :
    (cdist d pts).length = pts.length := by
  unfold cdist; rw [List.length_map, List.length_range]

theorem cdist_row_length (d : List ℚ → List ℚ → ℚ) {pts : List (List ℚ)}
    {i : ℕ} (hi : i < pts.length) :
    ((cdist d pts).getD i []).length = pts.length := by
  unfold cdist
  rw [getD_map_range _ hi, List.length_map, List.length_range]

theorem cdist_row_getD_diag {d : List ℚ → List ℚ → ℚ} (hdiag : ∀ a, d a a = 0)
    {pts : List (List ℚ)} {i : ℕ} (hi : i < pts.length) :
    ((cdist d pts).getD i []).getD i 0 = 0 := by
  unfold cdist
  rw [getD_map_range _ hi, getD_map_range _ hi]
  exact hdiag _

theorem count_sub_one_eq_specOtherCount {d : List ℚ → List ℚ → ℚ}
    (hdiag : ∀ a, d a a = 0) {pts2 : List (List ℚ)} {i : ℕ}
    (hi : i < pts2.length) {e : ℚ} (he : 0 < e) :
    ((((cdist d pts2).getD i []).countP (fun x => decide (x < e))) : ℤ) - 1
      = (specOtherCount d pts2 i e : ℤ) := by
  have hrowlen : ((cdist d pts2).getD i []).length = pts2.length :=
    cdist_row_length d hi
  have hdg : ((cdist d pts2).getD i []).getD i 0 = 0 :=
    cdist_row_getD_diag hdiag hi
  have hkey := countP_eraseIdx (fun x => decide (x < e))
    ((cdist d pts2).getD i []) i (by omega)
  rw [hdg] at hkey
  have hkey2 : ((cdist d pts2).getD i []).countP (fun x => decide (x < e))
      = (((cdist d pts2).getD i []).eraseIdx i).countP (fun x => decide (x < e))
        + (if decide ((0:ℚ) < e) = true then 1 else 0) := hkey
  rw [decide_eq_true he] at hkey2
  simp only [eq_self_iff_true, if_true] at hkey2
  unfold specOtherCount
  omega

theorem colJoin3_length (y f1 f2 : List ℚ) : (colJoin3 y f1 f2).length = y.length := by
  unfold colJoin3; rw [List.length_map, List.length_range]

theorem colJoin2_length (a b : List ℚ) : (colJoin2 a b).length = a.length := by
  unfold colJoin2; rw [List.length_map, List.length_range]

theorem colJoin1_length (a : List ℚ) : (colJoin1 a).length = a.length := by
  unfold colJoin1; rw [List.length_map, List.length_range]

theorem filterMap_id_map_some (l : List ℚ) :
    (l.map some).filterMap id = l := by
  induction l with
  | nil => rfl
  | cons a t ih => simp [List.filterMap_cons, ih]

theorem cmiArr_eq_specTerms {ψ : ℕ → ℚ} {d : List ℚ → List ℚ → ℚ} {k : ℕ}
    {y f1 f2 : List ℚ}
    (hsym : ∀ a b, d a b = d b a) (hdiag : ∀ a, d a a = 0)
    (hf1 : f1.length = y.length) (hf2 : f2.length = y.length)
    (hk : k + 1 < y.length)
    (heps : ∀ i < y.length, 0 < (cmiEps d k y f1 f2).getD i 0) :
    cmiArr ψ d k y f1 f2 = (specTerms ψ d k y f1 f2).map some := by
  have hkJ : k + 1 < (colJoin3 y f1 f2).length := by rw [colJoin3_length]; exact hk
  have hepsEq : ∀ i, i < y.length →
      (cmiEps d k y f1 f2).getD i 0 = specEps d k y f1 f2 i := by
    intro i hi
    unfold cmiEps specEps
    exact knnRadius_eq_sorted_getD hsym hkJ (by rw [colJoin3_length]; exact hi)
  have hcount : ∀ (X : List (List ℚ)), X.length = y.length → ∀ i, i < y.length →
      (neighborCount d X (cmiEps d k y f1 f2)).getD i 0
        = (specOtherCount d X i ((cmiEps d k y f1 f2).getD i 0) : ℤ) := by
    intro X hX i hi
    unfold neighborCount
    rw [getD_map_range _ (by omega)]
    exact count_sub_one_eq_specOtherCount hdiag (by omega) (heps i hi)
  apply List.ext_getElem
  · unfold cmiArr specTerms
    simp [List.length_map, List.length_range]
  · intro i h1 h2
    have hi : i < y.length := by
      unfold cmiArr at h1
      rw [List.length_map, List.length_range] at h1
      exact h1
    simp only [cmiArr, specTerms, List.getElem_map, List.getElem_range]
    rw [hcount (colJoin2 y f2) (colJoin2_length y f2) i hi,
      hcount (colJoin2 f1 f2) (by rw [colJoin2_length, hf1]) i hi,
      hcount (colJoin1 f2) (by rw [colJoin1_length, hf2]) i hi,
      hepsEq i hi]
    rw [if_pos ⟨Int.natCast_nonneg _, Int.natCast_nonneg _, Int.natCast_nonneg _⟩]
    have htn : ∀ (m : ℕ), (((m : ℤ)) + 1).toNat = m + 1 := fun m => by omega
    rw [htn, htn, htn]

theorem conditional_mutual_information_eq_spec
    {ψ : ℕ → ℚ} {d : List ℚ → List ℚ → ℚ} {k : ℕ} {y f1 f2 : List ℚ}
    (hsym : ∀ a b, d a b = d b a) (hdiag : ∀ a, d a a = 0)
    (hf1 : f1.length = y.length) (hf2 : f2.length = y.length)
    (hk : k + 1 < y.length)
    (heps : ∀ i < y.length, 0 < (cmiEps d k y f1 f2).getD i 0) :
    conditional_mutual_information ψ d k y f1 f2 = conditionalMISpec ψ d k y f1 f2 := by
  unfold conditional_mutual_information conditionalMISpec
  rw [cmiArr_eq_specTerms hsym hdiag hf1 hf2 hk heps, filterMap_id_map_some]

/-- The per-instance numpy random generator: `check_random_state(seed)`
plus the number of permutation draws consumed so far.  Each call to
`self.rng.permutation(y)` advances the counter. -/
def RngState : Type := ℕ × ℕ

/-- `self.rng = check_random_state(random_state)` in `__init__`: a fresh
generator stream for `seed` with no draws consumed yet. -/
def check_random_state (seed : ℕ) : RngState := (seed, 0)

/-- Static configuration of an `ER` instance used by `fit`
(`n_regressors` is `reg_matrix.shape[1]`, produced by the external basis
expansion). -/
structure ERConfig where
  n_regressors : ℕ
  n_perm : ℕ
  q : ℚ
  h : ℚ
  skip_forward : Bool

/-- The numeric oracle abstracting all real-valued estimates flowing into
the selection control flow:
* `miPerm seed c` — `mutual_information_knn(y, rng.permutation(y))` for
  the `c`-th permutation draw of the generator stream `seed`;
* `ksgMax` — `mutual_information_knn(y, reg_matrix @ pinv(reg_matrix) @ y)`;
* `ksgLocal sel` — the same with the projection onto the columns `sel`
  (`sel = []` stands for the `np.zeros_like(y)` branch);
* `cmiAdd sel i` — `conditional_mutual_information(y, f1, f2)` for
  `f1` the projection onto `sel ∪ {i}` and `f2` the projection onto `sel`;
* `backGain piv rem` — `conditional_mutual_information(y, f1, f2)` for
  `f1` the projection onto `piv` and `f2` the projection onto `rem`,
  inside the backward elimination over the narrowed matrix;
* `estim cols` — `getattr(self, self.estimator)(reg_matrix[:, cols], y_full)`.
The projections need an SVD over the reals, so they cannot be carried out
inside `ℚ`; every claim proved below holds for every oracle, and every
counterexample instantiates the oracle with concrete rational values. -/
structure MIOracle where
  miPerm : ℕ → ℕ → ℚ
  ksgMax : ℚ
  ksgLocal : List ℕ → ℚ
  cmiAdd : List ℕ → ℕ → ℚ
  backGain : List ℕ → List ℕ → ℚ
  estim : List ℕ → List ℚ

/-- The list of `n` consecutive permutation mutual-information estimates
drawn from the generator, together with the advanced generator state. -/
def drawBatch (o : MIOracle) (st : RngState) (n : ℕ) : List ℚ × RngState :=
  ((List.range n).map (fun i => o.miPerm st.1 (st.2 + i)), (st.1, st.2 + n))

/-- `tolerance_estimator(self, y)`: draw `n_perm` permutation MI
estimates and return their `q`-quantile (and the advanced rng state). -/
def tolerance_estimator (o : MIOracle) (n_perm : ℕ) (q : ℚ)
    (st : RngState) : ℚ × RngState :=
  (npQuantile (drawBatch o st n_perm).1 q, (drawBatch o st n_perm).2)

/-- `np.setdiff1d(piv, x)`: the sorted deduplicated list of entries of
`piv` different from `x`. -/
def setdiff1d (piv : List ℕ) (x : ℕ) : List ℕ :=
  List.insertionSort (· ≤ ·) ((piv.filter (fun a => decide (a ≠ x))).dedup)

/-- `np.argmin` over a fully populated rational vector: index of the
first occurrence of the minimum. -/
def nanargmin (l : List ℚ) : ℕ := firstIdxOf (minQ l) l

/-- One `while` pass of `entropic_regression_backward`, fuel-recursive
(`fuel = len(piv)` suffices: every round deletes exactly one index and
the loop requires `len(piv) > 1`).  `minValue` starts at `-np.inf` (`⊥`),
so with a non-`NaN` tolerance the first round is unconditional.  The
`if piv[i] not in []` guard of the source is vacuously true and elided. -/
def backwardLoop (gain : List ℕ → List ℕ → ℚ) (tol : ℚ) :
    ℕ → WithBot ℚ → List ℕ → List ℕ
  | 0, _, piv => piv
  | fuel + 1, minValue, piv =>
    if minValue ≤ (tol : WithBot ℚ) ∧ 1 < piv.length then
      let vals := piv.map (fun x => gain piv (setdiff1d piv x))
      let ix := nanargmin vals
      backwardLoop gain tol fuel ((vals.getD ix 0 : ℚ) : WithBot ℚ) (piv.eraseIdx ix)
    else piv

/-- `entropic_regression_backward(self, reg_matrix, y, piv)` with the
conditional-MI evaluations abstracted into `gain`. -/
def entropic_regression_backward (gain : List ℕ → List ℕ → ℚ) (tol : ℚ)
    (piv : List ℕ) : List ℕ :=
  backwardLoop gain tol piv.length ⊥ piv

/-- `initial_vector = np.full((1, n), -np.inf)` then
`initial_vector[0, i] = conditional_mutual_information(...)` for every
not-yet-selected column `i`. -/
def forwardGains (cfg : ERConfig) (o : MIOracle) (sel : List ℕ) : List (WithBot ℚ) :=
  (List.range cfg.n_regressors).map (fun i =>
    if i ∈ sel then (⊥ : WithBot ℚ) else ((o.cmiAdd sel i : ℚ) : WithBot ℚ))

/-- `np.nanargmax`: the first index attaining the maximum (no `NaN`
exists in the `ℚ` model; `-inf` entries are `⊥`). -/
def nanargmax (l : List (WithBot ℚ)) : ℕ := firstIdxOf (maxB l) l

/-- Outcome of one round of the forward-selection `while` loop. -/
inductive ForwardStep where
  | stop (success : Bool)
  | add (ix : ℕ)
deriving DecidableEq

/-- One round of `entropic_regression_forward`: compute `ksg_local`, the
candidate gain vector, `ix = np.nanargmax(...)` and `max_value`, then
test the stopping conditions in the order of the source. -/
def forwardStep (cfg : ERConfig) (o : MIOracle) (tol : ℚ) (sel : List ℕ) :
    ForwardStep :=
  if o.ksgMax - o.ksgLocal sel ≤ tol ∨
     maxB (forwardGains cfg o sel) ≤ (tol : WithBot ℚ) then
    .stop true
  else if ((8 : ℚ) ⊔ ((cfg.n_regressors : ℚ) / 2)) < (sel.length : ℚ) then
    .stop false
  else
    .add (nanargmax (forwardGains cfg o sel))

/-- The forward-selection `while` loop, fuel-recursive
(`fuel = n_regressors + 2` suffices: every continuing round appends a
fresh column, and once every column is selected the `max_value ≤ tol`
condition fires because the gain vector is all `-inf`). -/
def forwardLoop (cfg : ERConfig) (o : MIOracle) (tol : ℚ) :
    ℕ → List ℕ → List ℕ × Bool
  | 0, sel => (sel, false)
  | fuel + 1, sel =>
    match forwardStep cfg o tol sel with
    | .stop b => (sel, b)
    | .add ix => forwardLoop cfg o tol fuel (sel ++ [ix])

/-- `entropic_regression_forward(self, reg_matrix, y)`: recompute
`self.tol = self.tolerance_estimator(y)` (consuming `n_perm` fresh
permutation draws), then run the greedy loop from the empty selection.
Returns `((selected_terms, success), new self.tol, new rng state)`. -/
def entropic_regression_forward (cfg : ERConfig) (o : MIOracle)
    (st : RngState) : (List ℕ × Bool) × ℚ × RngState :=
  (forwardLoop cfg o (tolerance_estimator o cfg.n_perm cfg.q st).1
      (cfg.n_regressors + 2) [],
   (tolerance_estimator o cfg.n_perm cfg.q st).1,
   (tolerance_estimator o cfg.n_perm cfg.q st).2)

/-- The fields of a fitted `ER` instance relevant to the claims, plus the
two tolerance values actually used (`tol_backward` is the value of
`self.tol` at the moment `entropic_regression_backward` reads it,
`tol_forward` the value recomputed inside the forward phase when it ran).
`final_model_checked` is the index set after the constant-term re-check
(line `if 0 not in final_model: final_model = np.array([0, *final_model])`)
and before the post-hoc pruning; `pivv` and `theta` are the final values
stored on the instance. -/
structure FitResult where
  estimated_tolerance : ℚ
  tol_forward : Option ℚ
  tol_backward : ℚ
  forward_success : Bool
  final_model_checked : List ℕ
  theta : List ℚ
  pivv : List ℕ

/-- `selected_terms_backward = entropic_regression_backward(
reg_matrix[:, selected_terms], y, list(range(len(selected_terms))))`:
backward elimination over logical positions into `selected_terms`. -/
def fitBack (o : MIOracle) (tolCur : ℚ) (selected : List ℕ) : List ℕ :=
  entropic_regression_backward o.backGain tolCur (List.range selected.length)

/-- `final_model = selected_terms[selected_terms_backward]`. -/
def fitFinal0 (o : MIOracle) (tolCur : ℚ) (selected : List ℕ) : List ℕ :=
  (fitBack o tolCur selected).map (fun j => selected.getD j 0)

/-- The constant-term re-check:
`if 0 not in final_model: final_model = np.array([0, *final_model])`. -/
def fitChecked (o : MIOracle) (tolCur : ℚ) (selected : List ℕ) : List ℕ :=
  if 0 ∈ fitFinal0 o tolCur selected then fitFinal0 o tolCur selected
  else 0 :: fitFinal0 o tolCur selected

/-- The tail of `fit` shared by the `skip_forward` branches: backward
elimination over logical positions, composition
`final_model = selected_terms[selected_terms_backward]`, the constant
re-check, parameter estimation `theta = estimator(...)`, and the post-hoc
pruning `if abs(theta[0]) < h and sum(theta != 0) > 1`, which drops the
leading entry of `theta`, `final_model` and the final index set. -/
def fitTail (cfg : ERConfig) (o : MIOracle) (tol0 : ℚ) (tolF : Option ℚ)
    (succ : Bool) (selected : List ℕ) (tolCur : ℚ) (st : RngState) :
    FitResult × RngState :=
  if |(o.estim (fitChecked o tolCur selected)).getD 0 0| < cfg.h ∧
     1 < (o.estim (fitChecked o tolCur selected)).countP (fun t => decide (t ≠ 0)) then
    ({ estimated_tolerance := tol0, tol_forward := tolF, tol_backward := tolCur,
       forward_success := succ,
       final_model_checked := fitChecked o tolCur selected,
       theta := (o.estim (fitChecked o tolCur selected)).tail,
       pivv := (fitChecked o tolCur selected).tail }, st)
  else
    ({ estimated_tolerance := tol0, tol_forward := tolF, tol_backward := tolCur,
       forward_success := succ,
       final_model_checked := fitChecked o tolCur selected,
       theta := o.estim (fitChecked o tolCur selected),
       pivv := fitChecked o tolCur selected }, st)

/-- `fit(self, X, y)` from the point where the warm-up-trimmed target is
fixed: the inline `n_perm`-permutation quantile (`self.tol`,
`self.estimated_tolerance`), the optional forward phase (which
*recomputes* `self.tol` via `tolerance_estimator`), the fallback
`selected_terms = range(n_regressors)` when the forward phase is skipped
or fails, and the shared tail. -/
def fitER (cfg : ERConfig) (o : MIOracle) (st : RngState) :
    FitResult × RngState :=
  if cfg.skip_forward then
    fitTail cfg o (npQuantile (drawBatch o st cfg.n_perm).1 cfg.q) none false
      (List.range cfg.n_regressors)
      (npQuantile (drawBatch o st cfg.n_perm).1 cfg.q)
      (drawBatch o st cfg.n_perm).2
  else
    fitTail cfg o (npQuantile (drawBatch o st cfg.n_perm).1 cfg.q)
      (some (entropic_regression_forward cfg o (drawBatch o st cfg.n_perm).2).2.1)
      (entropic_regression_forward cfg o (drawBatch o st cfg.n_perm).2).1.2
      (if (entropic_regression_forward cfg o (drawBatch o st cfg.n_perm).2).1.2 then
        (entropic_regression_forward cfg o (drawBatch o st cfg.n_perm).2).1.1
      else List.range cfg.n_regressors)
      (entropic_regression_forward cfg o (drawBatch o st cfg.n_perm).2).2.1
      (entropic_regression_forward cfg o (drawBatch o st cfg.n_perm).2).2.2

/-- Dynamic Python values that can be passed to the `ER` constructor
parameters checked by `_validate_params` (numbers as exact rationals). -/
inductive PyVal where
  | int (n : ℤ)
  | bool (b : Bool)
  | float (x : ℚ)
  | str (s : String)
  | list (l : List ℤ)
  | pyNone
deriving DecidableEq

/-- `isinstance(v, int)` — in CPython `bool` is a subclass of `int`. -/
def pyIsInt : PyVal → Bool
  | .int _ => true
  | .bool _ => true
  | _ => false

/-- The integer value of an int-like Python value (`True == 1`,
`False == 0`); junk `0` elsewhere. -/
def pyIntVal : PyVal → ℤ
  | .int n => n
  | .bool b => if b then 1 else 0
  | _ => 0

/-- `isinstance(v, float)` — `int` and `bool` are not `float`. -/
def pyIsFloat : PyVal → Bool
  | .float _ => true
  | _ => false

/-- The float value of a float Python value; junk `0` elsewhere. -/
def pyFloatVal : PyVal → ℚ
  | .float x => x
  | _ => 0

/-- `isinstance(v, bool)`. -/
def pyIsBool : PyVal → Bool
  | .bool _ => true
  | _ => false

/-- `isinstance(v, (int, list))`. -/
def pyIsIntOrList : PyVal → Bool
  | .int _ => true
  | .bool _ => true
  | .list _ => true
  | _ => false

/-- Exception kinds raised by `__init__`/`_validate_params`. -/
inductive PyError where
  | valueError
  | typeError
  | attributeError
deriving DecidableEq

/-- Constructor parameters of `ER` subject to validation. -/
structure RawParams where
  ylag : PyVal
  xlag : PyVal
  k : PyVal
  n_perm : PyVal
  q : PyVal
  skip_forward : PyVal
  extended_least_squares : PyVal
  model_type : String
  basis_degree : Option ℕ

/-- `_validate_params(self)`: the checks in source order.  (Formatting a
non-numeric value with `"%f"` would raise `TypeError` instead of the
`ValueError` being built; either way an exception propagates, and the
error kind below is the one of the `raise` statement itself.) -/
def validate_params (p : RawParams) : Except PyError Unit :=
  if pyIsInt p.ylag && decide (pyIntVal p.ylag < 1) then .error .valueError
  else if pyIsInt p.xlag && decide (pyIntVal p.xlag < 1) then .error .valueError
  else if !(pyIsIntOrList p.xlag) then .error .valueError
  else if !(pyIsIntOrList p.ylag) then .error .valueError
  else if !(pyIsInt p.k) || decide (pyIntVal p.k < 1) then .error .valueError
  else if !(pyIsInt p.n_perm) || decide (pyIntVal p.n_perm < 1) then .error .valueError
  else if !(pyIsFloat p.q) || decide (1 < pyFloatVal p.q)
      || decide (pyFloatVal p.q ≤ 0) then .error .valueError
  else if !(pyIsBool p.skip_forward) then .error .typeError
  else if !(pyIsBool p.extended_least_squares) then .error .typeError
  else if !(decide (p.model_type = "NARMAX") || decide (p.model_type = "NAR")
      || decide (p.model_type = "NFIR")) then .error .valueError
  else .ok ()

/-- `ER.__init__`: `self.non_degree = basis_function.degree` dereferences
the basis function before anything else (an `AttributeError` when it is
`None`), then `_validate_params()` runs before `super().__init__`; any
raise leaves no usable instance. -/
def er_init (p : RawParams) : Except PyError Unit :=
  match p.basis_degree with
  | Option.none => .error .attributeError
  | some _ => validate_params p

theorem backwardLoop_subset (gain : List ℕ → List ℕ → ℚ) (tol : ℚ) :
    ∀ (fuel : ℕ) (mv : WithBot ℚ) (piv : List ℕ),
      backwardLoop gain tol fuel mv piv ⊆ piv := by
  intro fuel
  induction fuel with
  | zero => intro mv piv; exact fun x hx => hx
  | succ n ih =>
    intro mv piv
    unfold backwardLoop
    split
    · exact (ih _ _).trans (List.eraseIdx_sublist _ _).subset
    · exact fun x hx => hx

theorem backwardLoop_length_le (gain : List ℕ → List ℕ → ℚ) (tol : ℚ) :
    ∀ (fuel : ℕ) (mv : WithBot ℚ) (piv : List ℕ),
      (backwardLoop gain tol fuel mv piv).length ≤ piv.length := by
  intro fuel
  induction fuel with
  | zero => intro mv piv; exact le_refl _
  | succ n ih =>
    intro mv piv
    unfold backwardLoop
    split
    · exact (ih _ _).trans (List.eraseIdx_sublist _ _).length_le
    · exact le_refl _

theorem backwardLoop_ne_nil (gain : List ℕ → List ℕ → ℚ) (tol : ℚ) :
    ∀ (fuel : ℕ) (mv : WithBot ℚ) (piv : List ℕ),
      piv ≠ [] → backwardLoop gain tol fuel mv piv ≠ [] := by
  intro fuel
  induction fuel with
  | zero => intro mv piv h; exact h
  | succ n ih =>
    intro mv piv h
    unfold backwardLoop
    split
    · rename_i hcond
      apply ih
      have hx : nanargmin (piv.map (fun x => gain piv (setdiff1d piv x))) <
          (piv.map (fun x => gain piv (setdiff1d piv x))).length :=
        nanargmin_lt_length (by
          intro hnil
          exact h (List.map_eq_nil_iff.mp hnil))
      rw [List.length_map] at hx
      intro hnil
      have hlen := congrArg List.length hnil
      rw [List.length_eraseIdx, if_pos hx] at hlen
      simp only [List.length_nil] at hlen
      have h2 := hcond.2
      omega
    · exact h

theorem entropic_regression_backward_of_singleton
    (gain : List ℕ → List ℕ → ℚ) (tol : ℚ) (x : ℕ) :
    entropic_regression_backward gain tol [x] = [x] := by
  unfold entropic_regression_backward backwardLoop
  simp

theorem entropic_regression_backward_strict
    (gain : List ℕ → List ℕ → ℚ) (tol : ℚ) {piv : List ℕ}
    (h : 1 < piv.length) :
    (entropic_regression_backward gain tol piv).length < piv.length := by
  unfold entropic_regression_backward
  obtain ⟨m, hm⟩ : ∃ m, piv.length = m + 2 := ⟨piv.length - 2, by omega⟩
  rw [hm]
  unfold backwardLoop
  rw [if_pos ⟨bot_le, h⟩]
  have hx : nanargmin (piv.map (fun x => gain piv (setdiff1d piv x))) <
      (piv.map (fun x => gain piv (setdiff1d piv x))).length :=
    nanargmin_lt_length (by
      intro hnil
      have hlen := congrArg List.length hnil
      rw [List.length_map] at hlen
      simp only [List.length_nil] at hlen
      omega)
  rw [List.length_map] at hx
  refine lt_of_le_of_lt (backwardLoop_length_le gain tol _ _ _) ?_
  rw [List.length_eraseIdx, if_pos hx]
  omega

theorem forwardGains_length (cfg : ERConfig) (o : MIOracle) (sel : List ℕ) :
    (forwardGains cfg o sel).length = cfg.n_regressors := by
  unfold forwardGains; rw [List.length_map, List.length_range]

theorem forwardGains_getD (cfg : ERConfig) (o : MIOracle) (sel : List ℕ)
    {i : ℕ} (hi : i < cfg.n_regressors) :
    (forwardGains cfg o sel).getD i ⊥
      = if i ∈ sel then (⊥ : WithBot ℚ) else ((o.cmiAdd sel i : ℚ) : WithBot ℚ) := by
  unfold forwardGains
  rw [getD_map_range _ hi]

theorem maxB_forwardGains_le_iff (cfg : ERConfig) (o : MIOracle)
    (sel : List ℕ) (tol : ℚ) :
    maxB (forwardGains cfg o sel) ≤ (tol : WithBot ℚ) ↔
      ∀ i < cfg.n_regressors, i ∉ sel → o.cmiAdd sel i ≤ tol := by
  rw [maxB_le_iff]
  constructor
  · intro hall i hi hmem
    have hmemg : ((o.cmiAdd sel i : ℚ) : WithBot ℚ) ∈ forwardGains cfg o sel := by
      unfold forwardGains
      refine List.mem_map.mpr ⟨i, List.mem_range.mpr hi, ?_⟩
      simp [hmem]
    exact WithBot.coe_le_coe.mp (hall _ hmemg)
  · intro hall x hx
    unfold forwardGains at hx
    rcases List.mem_map.mp hx with ⟨i, hir, heq⟩
    by_cases hmem : i ∈ sel
    · rw [← heq]; simp [hmem]
    · rw [← heq]
      simp only [hmem, if_false]
      exact WithBot.coe_le_coe.mpr (hall i (List.mem_range.mp hir) hmem)

theorem nanargmax_spec {l : List (WithBot ℚ)} (h : maxB l ≠ ⊥) :
    nanargmax l < l.length ∧ l.getD (nanargmax l) ⊥ = maxB l ∧
      ∀ j < nanargmax l, l.getD j ⊥ ≠ maxB l := by
  have hmem : maxB l ∈ l := (maxB_mem_or_bot l).resolve_right h
  exact ⟨firstIdxOf_lt_length hmem, getD_firstIdxOf hmem ⊥,
    fun j hj => getD_ne_of_lt_firstIdxOf hj ⊥⟩

theorem cheb_symm (a b : List ℚ) : cheb a b = cheb b a := by
  unfold cheb
  rw [List.zipWith_comm (fun x y => |x - y|)]
  have hf : (fun (x y : ℚ) => |y - x|) = fun (x y : ℚ) => |x - y| := by
    funext x y
    exact abs_sub_comm y x
  rw [hf]

theorem cheb_diag (a : List ℚ) : cheb a a = 0 := by
  unfold cheb
  induction a with
  | nil => rfl
  | cons x t ih =>
    rw [List.zipWith_cons_cons, List.foldr_cons, sub_self, abs_zero, ih]
    exact max_self 0

theorem foldr_max_nonneg (l : List ℚ) : (0:ℚ) ≤ l.foldr max 0 := by
  induction l with
  | nil => exact le_refl 0
  | cons x t ih => exact le_trans ih (le_max_right x _)

theorem cheb_nonneg (a b : List ℚ) : 0 ≤ cheb a b := foldr_max_nonneg _

/-- Claim C3: in `mutual_information_knn` and
`conditional_mutual_information` (whose common radius block is modelled
by `knnRadius`), for every symmetric, nonnegative, zero-diagonal distance
and `k + 1 < n_samples`, `epsilon[i]` is the largest of the `k+1`
smallest entries of row `i` of the pairwise distance matrix — the
self-distance `0` being among them — equivalently the distance from
point `i` to its `k`-th nearest neighbour excluding itself. -/
theorem claimC3 (d : List ℚ → List ℚ → ℚ) (pts : List (List ℚ)) (k : ℕ)
    (hsym : ∀ a b, d a b = d b a) (hdiag : ∀ a, d a a = 0)
    (hnn : ∀ a b, 0 ≤ d a b) (hk1 : 1 ≤ k) (hk : k + 1 < pts.length)
    (i : ℕ) (hi : i < pts.length) :
    (knnRadius d k pts).getD i 0
        = (List.insertionSort (· ≤ ·) ((cdist d pts).getD i [])).getD k 0 ∧
    (knnRadius d k pts).getD i 0
        = (List.insertionSort (· ≤ ·)
            (((cdist d pts).getD i []).erase 0)).getD (k - 1) 0 := by
  have h1 := knnRadius_eq_sorted_getD hsym hk hi
  refine ⟨h1, ?_⟩
  rw [h1]
  have hlen : ((cdist d pts).getD i []).length = pts.length := cdist_row_length d hi
  have hrow0 : (0:ℚ) ∈ (cdist d pts).getD i [] := by
    have hval : ((cdist d pts).getD i []).getD i 0
        = ((cdist d pts).getD i []).get ⟨i, by omega⟩ := by
      rw [List.getD_eq_getElem?_getD, List.getElem?_eq_getElem (by omega)]; rfl
    rw [cdist_row_getD_diag hdiag hi] at hval
    rw [hval]
    exact List.get_mem _ _ _
  have hrownn : ∀ x ∈ (cdist d pts).getD i [], 0 ≤ x := by
    intro x hx
    unfold cdist at hx
    rw [getD_map_range _ hi] at hx
    rcases List.mem_map.mp hx with ⟨j, _, rfl⟩
    exact hnn _ _
  rw [insertionSort_erase_zero hrownn hrow0]
  obtain ⟨m, rfl⟩ : ∃ m, k = m + 1 := ⟨k - 1, by omega⟩
  simp [List.getD_cons_succ]

/-- Witness for C3: Chebyshev distance on the four 1-dimensional points
`0, 1, 3, 7` with `k = 1` at sample `i = 0`; the radius evaluates to `1`. -/
theorem claimC3_witness :
    ((knnRadius cheb 1 [[(0:ℚ)], [1], [3], [7]]).getD 0 0
        = (List.insertionSort (· ≤ ·)
            ((cdist cheb [[(0:ℚ)], [1], [3], [7]]).getD 0 [])).getD 1 0 ∧
      (knnRadius cheb 1 [[(0:ℚ)], [1], [3], [7]]).getD 0 0
        = (List.insertionSort (· ≤ ·)
            (((cdist cheb [[(0:ℚ)], [1], [3], [7]]).getD 0 []).erase 0)).getD 0 0) ∧
    (knnRadius cheb 1 [[(0:ℚ)], [1], [3], [7]]).getD 0 0 = 1 :=
  ⟨claimC3 cheb [[(0:ℚ)], [1], [3], [7]] 1 cheb_symm cheb_diag cheb_nonneg
      (by decide) (by with_unfolding_all decide) 0 (by decide),
   by with_unfolding_all decide⟩

/-- Claim C4: one round of the forward-selection loop stops with
`success = True` exactly when `ksg_max - ksg_local ≤ tol` or every
not-yet-selected candidate gain is `≤ tol` (i.e. `max_value ≤ tol`);
stops with `success = False` exactly when neither holds and
`len(selected_terms) > max(8, n_regressors / 2)`; and otherwise adds the
not-yet-selected column maximizing the conditional MI, ties broken by the
lowest column index (`np.nanargmax` first occurrence). -/
theorem claimC4 (cfg : ERConfig) (o : MIOracle) (tol : ℚ) (sel : List ℕ) :
    (forwardStep cfg o tol sel = .stop true ↔
      (o.ksgMax - o.ksgLocal sel ≤ tol ∨
       ∀ i < cfg.n_regressors, i ∉ sel → o.cmiAdd sel i ≤ tol)) ∧
    (forwardStep cfg o tol sel = .stop false ↔
      (¬(o.ksgMax - o.ksgLocal sel ≤ tol) ∧
       ¬(∀ i < cfg.n_regressors, i ∉ sel → o.cmiAdd sel i ≤ tol) ∧
       (8 : ℚ) ⊔ ((cfg.n_regressors : ℚ) / 2) < (sel.length : ℚ))) ∧
    (∀ ix, forwardStep cfg o tol sel = .add ix →
      ix < cfg.n_regressors ∧ ix ∉ sel ∧
      (∀ j < cfg.n_regressors, j ∉ sel → o.cmiAdd sel j ≤ o.cmiAdd sel ix) ∧
      (∀ j < ix, j ∉ sel → o.cmiAdd sel j < o.cmiAdd sel ix)) := by
  have hiff := maxB_forwardGains_le_iff cfg o sel tol
  by_cases h1 : o.ksgMax - o.ksgLocal sel ≤ tol ∨
      maxB (forwardGains cfg o sel) ≤ (tol : WithBot ℚ)
  · have hstep : forwardStep cfg o tol sel = .stop true := by
      unfold forwardStep; rw [if_pos h1]
    refine ⟨?_, ?_, ?_⟩
    · constructor
      · intro _
        rcases h1 with h | h
        · exact Or.inl h
        · exact Or.inr (hiff.mp h)
      · intro _; exact hstep
    · constructor
      · intro hc; rw [hstep] at hc; simp at hc
      · rintro ⟨hn1, hn2, _⟩
        rcases h1 with h | h
        · exact absurd h hn1
        · exact absurd (hiff.mp h) hn2
    · intro ix hc; rw [hstep] at hc; simp at hc
  · rw [not_or] at h1
    obtain ⟨hn1, hn2⟩ := h1
    by_cases hg : (8 : ℚ) ⊔ ((cfg.n_regressors : ℚ) / 2) < (sel.length : ℚ)
    · have hstep : forwardStep cfg o tol sel = .stop false := by
        unfold forwardStep
        rw [if_neg (not_or.mpr ⟨hn1, hn2⟩), if_pos hg]
      refine ⟨?_, ?_, ?_⟩
      · constructor
        · intro hc; rw [hstep] at hc; simp at hc
        · rintro (h | h)
          · exact absurd h hn1
          · exact absurd (hiff.mpr h) hn2
      · constructor
        · intro _; exact ⟨hn1, fun hc => hn2 (hiff.mpr hc), hg⟩
        · intro _; exact hstep
      · intro ix hc; rw [hstep] at hc; simp at hc
    · have hmaxne : maxB (forwardGains cfg o sel) ≠ ⊥ := by
        intro hbot
        exact hn2 (by rw [hbot]; exact bot_le)
      obtain ⟨hlt, hgetD, hfirst⟩ := nanargmax_spec hmaxne
      have hstep : forwardStep cfg o tol sel
          = .add (nanargmax (forwardGains cfg o sel)) := by
        unfold forwardStep
        rw [if_neg (not_or.mpr ⟨hn1, hn2⟩), if_neg hg]
      have hixn : nanargmax (forwardGains cfg o sel) < cfg.n_regressors := by
        rw [forwardGains_length] at hlt; exact hlt
      have hixnotsel : nanargmax (forwardGains cfg o sel) ∉ sel := by
        intro hmem
        rw [forwardGains_getD cfg o sel hixn, if_pos hmem] at hgetD
        exact hmaxne hgetD.symm
      have hmaxval : maxB (forwardGains cfg o sel)
          = ((o.cmiAdd sel (nanargmax (forwardGains cfg o sel)) : ℚ) : WithBot ℚ) := by
        rw [← hgetD, forwardGains_getD cfg o sel hixn, if_neg hixnotsel]
      refine ⟨?_, ?_, ?_⟩
      · constructor
        · intro hc; rw [hstep] at hc; simp at hc
        · rintro (h | h)
          · exact absurd h hn1
          · exact absurd (hiff.mpr h) hn2
      · constructor
        · intro hc; rw [hstep] at hc; simp at hc
        · rintro ⟨_, _, hgg⟩; exact absurd hgg hg
      · intro ix hc
        rw [hstep] at hc
        injection hc with hixeq
        subst hixeq
        refine ⟨hixn, hixnotsel, ?_, ?_⟩
        · intro j hj hjsel
          have hmemg : ((o.cmiAdd sel j : ℚ) : WithBot ℚ) ∈ forwardGains cfg o sel := by
            unfold forwardGains
            exact List.mem_map.mpr ⟨j, List.mem_range.mpr hj, by simp [hjsel]⟩
          have hle := le_maxB hmemg
          rw [hmaxval] at hle
          exact WithBot.coe_le_coe.mp hle
        · intro j hj hjsel
          have hjn : j < cfg.n_regressors := lt_trans hj hixn
          have hne := hfirst j hj
          rw [forwardGains_getD cfg o sel hjn, if_neg hjsel, hmaxval] at hne
          have hmemg : ((o.cmiAdd sel j : ℚ) : WithBot ℚ) ∈ forwardGains cfg o sel := by
            unfold forwardGains
            exact List.mem_map.mpr ⟨j, List.mem_range.mpr hjn, by simp [hjsel]⟩
          have hle := le_maxB hmemg
          rw [hmaxval] at hle
          exact lt_of_le_of_ne (WithBot.coe_le_coe.mp hle)
            (fun heq => hne (by rw [heq]))

/-- Claim C9: with any (non-`NaN`) tolerance, `entropic_regression_backward`
on a pivot set of more than one index always removes at least one index
(the initial `min_value = -inf` makes the first round unconditional); the
result is a non-empty subset of the input, and a singleton pivot set is
returned unchanged. -/
theorem claimC9 (gain : List ℕ → List ℕ → ℚ) (tol : ℚ) (piv : List ℕ)
    (h : 1 < piv.length) :
    (entropic_regression_backward gain tol piv).length < piv.length ∧
    entropic_regression_backward gain tol piv ≠ [] ∧
    entropic_regression_backward gain tol piv ⊆ piv ∧
    ∀ x : ℕ, entropic_regression_backward gain tol [x] = [x] :=
  ⟨entropic_regression_backward_strict gain tol h,
   backwardLoop_ne_nil gain tol _ _ _ (by
     intro h0; rw [h0] at h; simp at h),
   backwardLoop_subset gain tol _ _ _,
   fun x => entropic_regression_backward_of_singleton gain tol x⟩

/-- Witness for C9: a constant gain, zero tolerance and pivot `[0, 1, 2]`. -/
theorem claimC9_witness :
    (entropic_regression_backward (fun _ _ => 0) 0 [0, 1, 2]).length < 3 ∧
    entropic_regression_backward (fun _ _ => 0) 0 [0, 1, 2] ≠ [] ∧
    entropic_regression_backward (fun _ _ => 0) 0 [0, 1, 2] ⊆ [0, 1, 2] ∧
    ∀ x : ℕ, entropic_regression_backward (fun _ _ => (0:ℚ)) 0 [x] = [x] :=
  claimC9 (fun _ _ => 0) 0 [0, 1, 2] (by decide)

/-- Claim C6: `tolerance_estimator` returns the `q`-quantile of the
`n_perm` permutation mutual-information estimates; when all the estimates
are finite (always, in `ℚ`) the returned tolerance lies within any bounds
enclosing the estimates, in particular within their `[min, max]`. -/
theorem claimC6 (o : MIOracle) (n_perm : ℕ) (q : ℚ) (st : RngState)
    (hn : 1 ≤ n_perm) (hq0 : 0 < q) (hq1 : q ≤ 1) (A B : ℚ)
    (hA : ∀ x ∈ (drawBatch o st n_perm).1, A ≤ x)
    (hB : ∀ x ∈ (drawBatch o st n_perm).1, x ≤ B) :
    (tolerance_estimator o n_perm q st).1
        = npQuantile (drawBatch o st n_perm).1 q ∧
    (drawBatch o st n_perm).1.length = n_perm ∧
    A ≤ (tolerance_estimator o n_perm q st).1 ∧
    (tolerance_estimator o n_perm q st).1 ≤ B := by
  have hlen : (drawBatch o st n_perm).1.length = n_perm := by
    unfold drawBatch; rw [List.length_map, List.length_range]
  have hne : (drawBatch o st n_perm).1 ≠ [] := by
    intro h0
    rw [h0] at hlen
    simp only [List.length_nil] at hlen
    omega
  obtain ⟨hb1, hb2⟩ := npQuantile_bounds hne (le_of_lt hq0) hq1 hA hB
  exact ⟨rfl, hlen, hb1, hb2⟩

/-- Oracle used by the C6 witness: the `c`-th permutation MI estimate is
just `c`. -/
def oracleC6 : MIOracle :=
  ⟨fun _ c => (c : ℚ), 0, fun _ => 0, fun _ _ => 0, fun _ _ => 0, fun _ => []⟩

/-- Witness for C6: two draws `[0, 1]`, `q = 1/2`; the tolerance is the
interpolated median `1/2`, inside `[0, 1]`. -/
theorem claimC6_witness :
    ((tolerance_estimator oracleC6 2 (1/2) (0, 0)).1
        = npQuantile (drawBatch oracleC6 (0, 0) 2).1 (1/2) ∧
      (drawBatch oracleC6 (0, 0) 2).1.length = 2 ∧
      (0:ℚ) ≤ (tolerance_estimator oracleC6 2 (1/2) (0, 0)).1 ∧
      (tolerance_estimator oracleC6 2 (1/2) (0, 0)).1 ≤ 1) ∧
    (tolerance_estimator oracleC6 2 (1/2) (0, 0)).1 = 1/2 :=
  ⟨claimC6 oracleC6 2 (1/2) (0, 0) (by decide) (by norm_num) (by norm_num) 0 1
      (by with_unfolding_all decide) (by with_unfolding_all decide),
   by with_unfolding_all decide⟩

theorem fitTail_estTol (cfg : ERConfig) (o : MIOracle) (tol0 : ℚ)
    (tolF : Option ℚ) (succ : Bool) (selected : List ℕ) (tolCur : ℚ)
    (st : RngState) :
    (fitTail cfg o tol0 tolF succ selected tolCur st).1.estimated_tolerance = tol0 := by
  unfold fitTail; split <;> rfl

theorem fitTail_tolBack (cfg : ERConfig) (o : MIOracle) (tol0 : ℚ)
    (tolF : Option ℚ) (succ : Bool) (selected : List ℕ) (tolCur : ℚ)
    (st : RngState) :
    (fitTail cfg o tol0 tolF succ selected tolCur st).1.tol_backward = tolCur := by
  unfold fitTail; split <;> rfl

theorem fitTail_tolForward (cfg : ERConfig) (o : MIOracle) (tol0 : ℚ)
    (tolF : Option ℚ) (succ : Bool) (selected : List ℕ) (tolCur : ℚ)
    (st : RngState) :
    (fitTail cfg o tol0 tolF succ selected tolCur st).1.tol_forward = tolF := by
  unfold fitTail; split <;> rfl

theorem fitTail_fmc (cfg : ERConfig) (o : MIOracle) (tol0 : ℚ)
    (tolF : Option ℚ) (succ : Bool) (selected : List ℕ) (tolCur : ℚ)
    (st : RngState) :
    (fitTail cfg o tol0 tolF succ selected tolCur st).1.final_model_checked
      = fitChecked o tolCur selected := by
  unfold fitTail; split <;> rfl

theorem fitTail_prune (cfg : ERConfig) (o : MIOracle) (tol0 : ℚ)
    (tolF : Option ℚ) (succ : Bool) (selected : List ℕ) (tolCur : ℚ)
    (st : RngState)
    (hp : |(o.estim (fitChecked o tolCur selected)).getD 0 0| < cfg.h ∧
      1 < (o.estim (fitChecked o tolCur selected)).countP (fun t => decide (t ≠ 0))) :
    (fitTail cfg o tol0 tolF succ selected tolCur st).1.theta
        = (o.estim (fitChecked o tolCur selected)).tail ∧
    (fitTail cfg o tol0 tolF succ selected tolCur st).1.pivv
        = (fitChecked o tolCur selected).tail := by
  unfold fitTail; rw [if_pos hp]; exact ⟨rfl, rfl⟩

theorem fitChecked_mem_zero (o : MIOracle) (tolCur : ℚ) (selected : List ℕ) :
    0 ∈ fitChecked o tolCur selected := by
  unfold fitChecked
  split
  · rename_i h; exact h
  · exact List.mem_cons_self 0 _

theorem fitTail_pivv_ne_nil (cfg : ERConfig) (o : MIOracle) (tol0 : ℚ)
    (tolF : Option ℚ) (succ : Bool) (selected : List ℕ) (tolCur : ℚ)
    (st : RngState)
    (hE : (o.estim (fitChecked o tolCur selected)).length
        = (fitChecked o tolCur selected).length) :
    (fitTail cfg o tol0 tolF succ selected tolCur st).1.pivv ≠ [] := by
  unfold fitTail
  split
  · rename_i hp
    have hlen2 : 1 < (o.estim (fitChecked o tolCur selected)).length :=
      lt_of_lt_of_le hp.2 (List.countP_le_length _)
    rw [hE] at hlen2
    intro hnil
    have hl := congrArg List.length hnil
    rw [List.length_tail] at hl
    simp only [List.length_nil] at hl
    omega
  · exact List.ne_nil_of_mem (fitChecked_mem_zero o tolCur selected)

theorem fitER_cases (cfg : ERConfig) (o : MIOracle) (st : RngState) :
    ∃ (tolF : Option ℚ) (succ : Bool) (selected : List ℕ) (tolCur : ℚ)
      (st2 : RngState),
      fitER cfg o st = fitTail cfg o
        (npQuantile (drawBatch o st cfg.n_perm).1 cfg.q)
        tolF succ selected tolCur st2 := by
  unfold fitER
  split
  · exact ⟨none, false, _, _, _, rfl⟩
  · exact ⟨some _, _, _, _, _, rfl⟩

/-- Claim C1 (amended): after the constant-term re-check inside `fit`,
the selected index set always contains column `0`, and — provided the
estimator returns one coefficient per selected column — the final fitted
model (`pivv`, `theta`) is never empty, even when the post-hoc pruning
fires.  (The pruning may, however, remove index `0` itself: see the
counterexample.) -/
theorem claimC1 (cfg : ERConfig) (o : MIOracle) (st : RngState)
    (hE : ∀ l, (o.estim l).length = l.length) :
    0 ∈ (fitER cfg o st).1.final_model_checked ∧
    (fitER cfg o st).1.pivv ≠ [] := by
  obtain ⟨tolF, succ, selected, tolCur, st2, heq⟩ := fitER_cases cfg o st
  rw [heq, fitTail_fmc]
  exact ⟨fitChecked_mem_zero o tolCur selected,
    fitTail_pivv_ne_nil cfg o _ tolF succ selected tolCur st2 (hE _)⟩

/-- Configuration for the C1/C10 pruning scenarios. -/
def cfgC1 : ERConfig :=
  { n_regressors := 3, n_perm := 1, q := 1, h := 2, skip_forward := true }

/-- Oracle for the C1 counterexample: backward elimination keeps
`[0, 2]`, the estimator returns `[1, 5]`, and since `|1| < h = 2` with
two nonzero coefficients the pruning removes the constant term. -/
def oracleC1 : MIOracle :=
  { miPerm := fun _ _ => 0, ksgMax := 0, ksgLocal := fun _ => 0,
    cmiAdd := fun _ _ => 0,
    backGain := fun _ rem => if rem = [0, 2] then 1 else 5,
    estim := fun _ => [1, 5] }

/-- Counterexample to C1 as stated: after this `fit` call the final
selected model does *not* contain the constant-term regressor — the
post-hoc pruning removed it (`pivv = [2]`). -/
theorem claimC1_counterexample :
    0 ∉ (fitER cfgC1 oracleC1 (0, 0)).1.pivv ∧
    (fitER cfgC1 oracleC1 (0, 0)).1.pivv = [2] := by
  with_unfolding_all decide

/-- Oracle with a length-preserving estimator for the C1 witness. -/
def oracleW : MIOracle :=
  { miPerm := fun _ _ => 0, ksgMax := 0, ksgLocal := fun _ => 0,
    cmiAdd := fun _ _ => 0, backGain := fun _ _ => 0,
    estim := fun l => l.map (fun _ => 1) }

/-- Witness for the amended C1. -/
theorem claimC1_witness :
    0 ∈ (fitER cfgC1 oracleW (0, 0)).1.final_model_checked ∧
    (fitER cfgC1 oracleW (0, 0)).1.pivv ≠ [] :=
  claimC1 cfgC1 oracleW (0, 0) (fun l => by
    simp only [oracleW, List.length_map])

/-- Claim C2 (amended): `estimated_tolerance` stores the quantile of the
first `n_perm`-permutation batch, computed once in `fit` from the
trimmed `y`; when `skip_forward` is set this same scalar is the backward
threshold, but when the forward phase runs it *recomputes* `self.tol`
from a fresh permutation batch, and that second value — not
`estimated_tolerance` — is what both the forward and the backward phases
compare against. -/
theorem claimC2 (cfg : ERConfig) (o : MIOracle) (st : RngState) :
    (fitER cfg o st).1.estimated_tolerance
        = npQuantile (drawBatch o st cfg.n_perm).1 cfg.q ∧
    (cfg.skip_forward = true →
      (fitER cfg o st).1.tol_backward = (fitER cfg o st).1.estimated_tolerance) ∧
    (cfg.skip_forward = false →
      (fitER cfg o st).1.tol_forward = some ((fitER cfg o st).1.tol_backward) ∧
      (fitER cfg o st).1.tol_backward
        = npQuantile (drawBatch o (drawBatch o st cfg.n_perm).2 cfg.n_perm).1 cfg.q) := by
  by_cases hsk : cfg.skip_forward = true
  · unfold fitER
    rw [if_pos hsk]
    refine ⟨fitTail_estTol _ _ _ _ _ _ _ _, fun _ => ?_,
      fun hfalse => absurd hsk (by rw [hfalse]; simp)⟩
    rw [fitTail_tolBack, fitTail_estTol]
  · unfold fitER
    rw [if_neg hsk]
    refine ⟨fitTail_estTol _ _ _ _ _ _ _ _, fun htrue => absurd htrue hsk,
      fun _ => ⟨?_, ?_⟩⟩
    · rw [fitTail_tolForward, fitTail_tolBack]
    · rw [fitTail_tolBack]
      rfl

/-- Configuration for the C2 counterexample (forward phase enabled). -/
def cfgC2 : ERConfig :=
  { n_regressors := 1, n_perm := 1, q := 1, h := 0, skip_forward := false }

/-- Oracle for the C2 counterexample: the `c`-th permutation MI estimate
is `c`, so the fit-level quantile is `0` but the one recomputed inside
the forward phase is `1`. -/
def oracleC2 : MIOracle :=
  { miPerm := fun _ c => (c : ℚ), ksgMax := 0, ksgLocal := fun _ => 0,
    cmiAdd := fun _ _ => 0, backGain := fun _ _ => 0,
    estim := fun _ => [1] }

/-- Counterexample to C2 as stated: `estimated_tolerance` differs from
the threshold the backward eliminator compared against, because the
forward phase recomputed `self.tol` from fresh permutation draws. -/
theorem claimC2_counterexample :
    (fitER cfgC2 oracleC2 (0, 0)).1.estimated_tolerance
        ≠ (fitER cfgC2 oracleC2 (0, 0)).1.tol_backward ∧
    (fitER cfgC2 oracleC2 (0, 0)).1.estimated_tolerance = 0 ∧
    (fitER cfgC2 oracleC2 (0, 0)).1.tol_backward = 1 := by
  with_unfolding_all decide

/-- Witness for the amended C2, on both sides of `skip_forward`. -/
theorem claimC2_witness :
    ((fitER cfgC2 oracleC2 (0, 0)).1.tol_forward
        = some ((fitER cfgC2 oracleC2 (0, 0)).1.tol_backward) ∧
      (fitER cfgC2 oracleC2 (0, 0)).1.tol_backward
        = npQuantile (drawBatch oracleC2 (drawBatch oracleC2 (0, 0) 1).2 1).1 1) ∧
    (fitER cfgC1 oracleC1 (0, 0)).1.tol_backward
        = (fitER cfgC1 oracleC1 (0, 0)).1.estimated_tolerance :=
  ⟨(claimC2 cfgC2 oracleC2 (0, 0)).2.2 rfl,
   (claimC2 cfgC1 oracleC1 (0, 0)).2.1 rfl⟩

/-- Claim C7 (amended): `fit` is a pure function of the configuration,
the numeric oracle and the rng state, so two fits started from freshly
constructed instances with the same seed produce identical results.
(Re-running `fit` on the *same* instance is not covered: the rng state
advances across calls — see the counterexample.) -/
theorem claimC7 (cfg : ERConfig) (o : MIOracle) (seed : ℕ)
    (s1 s2 : RngState) (h1 : s1 = check_random_state seed)
    (h2 : s2 = check_random_state seed) :
    fitER cfg o s1 = fitER cfg o s2 := by
  subst h1; subst h2; rfl

/-- Configuration for the C7 counterexample. -/
def cfgC7 : ERConfig :=
  { n_regressors := 3, n_perm := 1, q := 1, h := 0, skip_forward := true }

/-- Oracle for the C7 counterexample: the permutation MI stream is
`0, 2, 4, ...`, so the first fit uses tolerance `0` (backward stops after
one elimination) while the second fit on the same instance uses
tolerance `2` (backward eliminates twice). -/
def oracleC7 : MIOracle :=
  { miPerm := fun _ c => 2 * (c : ℚ), ksgMax := 0, ksgLocal := fun _ => 0,
    cmiAdd := fun _ _ => 0,
    backGain := fun piv rem =>
      if piv = [0, 1, 2] then (if rem = [0, 2] then 1 else 5)
      else (if rem = [0] then 3 else 4),
    estim := fun _ => [1] }

/-- Counterexample to C7 as stated: re-running `fit` on the same instance
(same inputs, same stored seed) yields a different final model, because
the generator state advanced during the first call. -/
theorem claimC7_counterexample :
    (fitER cfgC7 oracleC7
        (fitER cfgC7 oracleC7 (check_random_state 0)).2).1.pivv
      ≠ (fitER cfgC7 oracleC7 (check_random_state 0)).1.pivv ∧
    (fitER cfgC7 oracleC7 (check_random_state 0)).1.pivv = [0, 2] ∧
    (fitER cfgC7 oracleC7
        (fitER cfgC7 oracleC7 (check_random_state 0)).2).1.pivv = [0] := by
  with_unfolding_all decide

/-- Witness for the amended C7. -/
theorem claimC7_witness :
    fitER cfgC7 oracleC7 (check_random_state 5)
      = fitER cfgC7 oracleC7 (check_random_state 5) :=
  claimC7 cfgC7 oracleC7 5 _ _ rfl rfl

/-- Configuration for the C10 scenario (forward phase enabled). -/
def cfgC10 : ERConfig :=
  { n_regressors := 3, n_perm := 1, q := 1, h := 2, skip_forward := false }

/-- Oracle for the C10 scenario: the forward selector picks columns in
the order `1, 2, 0`, backward elimination drops the first logical
position, leaving `final_model = [2, 0]` with the constant at position 1;
the pruning then removes position 0, i.e. regressor `2`, not the
constant. -/
def oracleC10 : MIOracle :=
  { miPerm := fun _ _ => 0, ksgMax := 10,
    ksgLocal := fun l => if l = [1, 2, 0] then 10 else 0,
    cmiAdd := fun sel i =>
      if sel = [] then (if i = 0 then 1 else if i = 1 then 5 else 2)
      else if sel = [1] then (if i = 0 then 3 else 7)
      else 4,
    backGain := fun _ rem => if rem = [1, 2] then 1 else 5,
    estim := fun _ => [1, 7] }

/-- Claim C10: the post-hoc pruning always removes the entry at position
0 of `theta`, of `final_model` and of the final index set; and position 0
need not hold the constant-term regressor — when the forward selector
picked column 0 late, index 0 sits at a later position and a different
regressor is pruned (concrete run: `final_model = [2, 0]`, pruning leaves
`pivv = [0]`). -/
theorem claimC10 :
    (∀ (cfg : ERConfig) (o : MIOracle) (st : RngState),
      (|(o.estim (fitER cfg o st).1.final_model_checked).getD 0 0| < cfg.h ∧
        1 < (o.estim (fitER cfg o st).1.final_model_checked).countP
          (fun t => decide (t ≠ 0))) →
      (fitER cfg o st).1.theta
          = (o.estim (fitER cfg o st).1.final_model_checked).tail ∧
      (fitER cfg o st).1.pivv
          = (fitER cfg o st).1.final_model_checked.tail) ∧
    ((fitER cfgC10 oracleC10 (0, 0)).1.final_model_checked = [2, 0] ∧
      0 ∈ (fitER cfgC10 oracleC10 (0, 0)).1.final_model_checked ∧
      (fitER cfgC10 oracleC10 (0, 0)).1.final_model_checked.getD 0 0 ≠ 0 ∧
      (fitER cfgC10 oracleC10 (0, 0)).1.pivv = [0]) := by
  constructor
  · intro cfg o st hp
    obtain ⟨tolF, succ, selected, tolCur, st2, heq⟩ := fitER_cases cfg o st
    rw [heq, fitTail_fmc] at hp
    rw [heq, fitTail_fmc]
    exact fitTail_prune cfg o _ tolF succ selected tolCur st2 hp
  · with_unfolding_all decide

/-- Witness for the universally quantified half of C10, at the concrete
pruning run of the C1 scenario. -/
theorem claimC10_witness :
    (fitER cfgC1 oracleC1 (0, 0)).1.theta
        = (oracleC1.estim (fitER cfgC1 oracleC1 (0, 0)).1.final_model_checked).tail ∧
    (fitER cfgC1 oracleC1 (0, 0)).1.pivv
        = (fitER cfgC1 oracleC1 (0, 0)).1.final_model_checked.tail :=
  claimC10.1 cfgC1 oracleC1 (0, 0)
    ⟨by with_unfolding_all decide, by with_unfolding_all decide⟩

/-- Claim C5 (amended): `conditional_mutual_information(y, f1, f2)`
equals `digamma(k)` minus the mean of
`digamma(y_f2+1) + digamma(f1_f2+1) - digamma(f2_f2+1)` with the counts
counting the other points strictly within the joint-space `k`-th-neighbour
radius — *provided every per-point radius is positive* (no sample has
`k+1` coincident joint-space points).  When some radius is zero the
code's count `sum(...) - 1` is `-1` and that term is dropped by the
finiteness mask, whereas the other-point count of the claim is `0` and
its term would be kept: see the counterexample. -/
theorem claimC5 (ψ : ℕ → ℚ) (d : List ℚ → List ℚ → ℚ) (k : ℕ)
    (y f1 f2 : List ℚ)
    (hsym : ∀ a b, d a b = d b a) (hdiag : ∀ a, d a a = 0)
    (hf1 : f1.length = y.length) (hf2 : f2.length = y.length)
    (hk : k + 1 < y.length)
    (heps : ∀ i < y.length, 0 < (cmiEps d k y f1 f2).getD i 0) :
    conditional_mutual_information ψ d k y f1 f2
      = conditionalMISpec ψ d k y f1 f2 :=
  conditional_mutual_information_eq_spec hsym hdiag hf1 hf2 hk heps

/-- Counterexample to C5 as stated: with the six 1-dimensional samples
`0, 0, 0, 9, 10, 11` and `k = 2`, the three coincident points have
radius `0`; the code value (`digamma := Int cast`) is `1/3` while the
claim's other-point-count formula gives `2/3`. -/
theorem claimC5_counterexample :
    conditional_mutual_information (fun n => (n : ℚ)) cheb 2
        [0, 0, 0, 9, 10, 11] [0, 0, 0, 9, 10, 11] [0, 0, 0, 9, 10, 11]
      ≠ conditionalMISpec (fun n => (n : ℚ)) cheb 2
        [0, 0, 0, 9, 10, 11] [0, 0, 0, 9, 10, 11] [0, 0, 0, 9, 10, 11] ∧
    conditional_mutual_information (fun n => (n : ℚ)) cheb 2
        [0, 0, 0, 9, 10, 11] [0, 0, 0, 9, 10, 11] [0, 0, 0, 9, 10, 11] = 1/3 ∧
    conditionalMISpec (fun n => (n : ℚ)) cheb 2
        [0, 0, 0, 9, 10, 11] [0, 0, 0, 9, 10, 11] [0, 0, 0, 9, 10, 11] = 2/3 := by
  with_unfolding_all decide

/-- Witness for the amended C5: four distinct samples, `k = 1`; all radii
are positive, both sides agree and evaluate to `0`. -/
theorem claimC5_witness :
    conditional_mutual_information (fun n => (n : ℚ)) cheb 1
        [0, 1, 3, 7] [0, 1, 3, 7] [0, 1, 3, 7]
      = conditionalMISpec (fun n => (n : ℚ)) cheb 1
        [0, 1, 3, 7] [0, 1, 3, 7] [0, 1, 3, 7] ∧
    conditional_mutual_information (fun n => (n : ℚ)) cheb 1
        [0, 1, 3, 7] [0, 1, 3, 7] [0, 1, 3, 7] = 0 :=
  ⟨claimC5 (fun n => (n : ℚ)) cheb 1 [0, 1, 3, 7] [0, 1, 3, 7] [0, 1, 3, 7]
      cheb_symm cheb_diag rfl rfl (by decide) (by with_unfolding_all decide),
   by with_unfolding_all decide⟩

/-- Claim C8: constructing `ER` with `k` not a positive integer,
`n_perm` not a positive integer, `q` not a float in `(0, 1]`,
`skip_forward` not a boolean, or `model_type` outside
`{NARMAX, NAR, NFIR}` raises at construction, so no usable model
instance is ever produced from such parameters. -/
theorem claimC8 (p : RawParams)
    (hbad :
      ¬(pyIsInt p.k = true ∧ 1 ≤ pyIntVal p.k) ∨
      ¬(pyIsInt p.n_perm = true ∧ 1 ≤ pyIntVal p.n_perm) ∨
      ¬(pyIsFloat p.q = true ∧ 0 < pyFloatVal p.q ∧ pyFloatVal p.q ≤ 1) ∨
      pyIsBool p.skip_forward = false ∨
      (p.model_type ≠ "NARMAX" ∧ p.model_type ≠ "NAR" ∧ p.model_type ≠ "NFIR")) :
    er_init p ≠ .ok () := by
  intro hok
  unfold er_init at hok
  cases hbd : p.basis_degree with
  | none => rw [hbd] at hok; exact Except.noConfusion hok
  | some deg =>
    rw [hbd] at hok
    unfold validate_params at hok
    repeat' split at hok
    all_goals try exact Except.noConfusion hok
    rename_i c1 c2 c3 c4 c5 c6 c7 c8 c9 c10
    simp only [Bool.or_eq_true, Bool.not_eq_true', decide_eq_true_eq, not_or]
      at c5 c6 c7 c10
    rcases hbad with h | h | h | h | h
    · obtain ⟨hk1, hk2⟩ := c5
      exact h ⟨by simpa using hk1, by omega⟩
    · obtain ⟨h1, h2⟩ := c6
      exact h ⟨by simpa using h1, by omega⟩
    · obtain ⟨⟨h1, h2⟩, h3⟩ := c7
      exact h ⟨by simpa using h1, not_le.mp h3, not_lt.mp h2⟩
    · exact c8 (by rw [h]; rfl)
    · have hx : (decide (p.model_type = "NARMAX") || decide (p.model_type = "NAR")
          || decide (p.model_type = "NFIR")) = true := by
        cases hb : (decide (p.model_type = "NARMAX") || decide (p.model_type = "NAR")
            || decide (p.model_type = "NFIR")) with
        | false => exact absurd hb c10
        | true => rfl
      simp only [Bool.or_eq_true, decide_eq_true_eq] at hx
      rcases hx with (hx | hx) | hx
      · exact h.1 hx
      · exact h.2.1 hx
      · exact h.2.2 hx

/-- Otherwise-valid constructor parameters with `k = 0`. -/
def rawBadK : RawParams :=
  { ylag := .int 2, xlag := .int 2, k := .int 0, n_perm := .int 200,
    q := .float 1, skip_forward := .bool false,
    extended_least_squares := .bool false, model_type := "NARMAX",
    basis_degree := some 2 }

/-- Witness for C8: `k = 0` makes construction raise a `ValueError`. -/
theorem claimC8_witness :
    er_init rawBadK ≠ .ok () ∧ er_init rawBadK = .error .valueError :=
  ⟨claimC8 rawBadK (Or.inl (by decide)), by rfl⟩

/-- Witness for C4: a concrete stop-with-success round and a concrete
add round whose added column (`1`) maximizes the gain with the
first-occurrence tie-break. -/
theorem claimC4_witness :
    forwardStep cfgC1 oracleC1 0 [] = .stop true ∧
    (1 < cfgC10.n_regressors ∧ 1 ∉ ([] : List ℕ) ∧
      (∀ j < cfgC10.n_regressors, j ∉ ([] : List ℕ) →
        oracleC10.cmiAdd [] j ≤ oracleC10.cmiAdd [] 1) ∧
      (∀ j < 1, j ∉ ([] : List ℕ) →
        oracleC10.cmiAdd [] j < oracleC10.cmiAdd [] 1)) :=
  ⟨(claimC4 cfgC1 oracleC1 0 []).1.mpr (Or.inl (by with_unfolding_all decide)),
   (claimC4 cfgC10 oracleC10 0 []).2.2 1 (by with_unfolding_all decide)⟩

end EntropicRegression
